import Mathlib

/-!
Verification of the chess decision-tree engine (`main.py`).

The rules engine (the `chess` library) is external to the repository: a
position is therefore embedded as a finitely branching game tree whose nodes
carry the data the search core actually reads from the library — the board
occupancy (for `evaluate`), the `is_game_over` flag, and the ordered list of
legal moves paired with the resulting subtrees.  The mutable state the code
manipulates (the board's move stack via `push`/`pop`, and the module-global
`explored` trace list) is threaded explicitly; the `path` list argument of
`minimax` is threaded and returned likewise.  Wall-clock time
(`time.time()`) is not modelled.  A trace entry stores the `Move` value
itself where the code stores `move.uci()` (an injective rendering of the
move, `None` for the leaf case).
-/

/-- `BOARD_SIZE = 8` (main.py line 6). -/
def BOARD_SIZE : Nat := 8

/-- `chess.square_file(square)`: file index 0–7 of a 0–63 square. -/
def square_file (square : Nat) : Nat := square % 8

/-- `chess.square_rank(square)`: rank index 0–7 of a 0–63 square. -/
def square_rank (square : Nat) : Nat := square / 8

/-- `square_to_xy` (main.py lines 10–13): centre coordinates of a square.
The Python float `0.5` is exact, so rationals model it faithfully. -/
def square_to_xy (square : Nat) : ℚ × ℚ :=
  ((square_file square : ℚ) + 1/2, (square_rank square : ℚ) + 1/2)

/-- A move as the search core consumes it: source and destination square.
(`chess.Move` also carries a promotion choice; the search core never reads
it, and it is irrelevant to every claim, so it is omitted.) -/
structure Move where
  from_square : Nat
  to_square : Nat
deriving DecidableEq

/-- The arrow drawn for a move: `(square_to_xy(move.from_square),
square_to_xy(move.to_square))`, the element type of the `path` lists. -/
def segOf (m : Move) : (ℚ × ℚ) × (ℚ × ℚ) :=
  (square_to_xy m.from_square, square_to_xy m.to_square)

/-- Piece kinds of the `chess` library (PAWN, KNIGHT, BISHOP, ROOK, QUEEN,
KING). -/
inductive PieceType where
  | pawn
  | knight
  | bishop
  | rook
  | queen
  | king
deriving DecidableEq

/-- The board data `evaluate` and `minimax_root` read from the `chess`
library: `board.pieces(p, color)` (the squares holding pieces of kind `p`
and colour `color`; `true` is White) and `board.turn`.  `inCheck` records
`board.is_check()`; the source never reads it — it exists only so that the
evaluator the specification describes (central-square and check-threat
terms) can be stated and compared against the code. -/
structure Board where
  pieces : PieceType → Bool → List Nat
  turn : Bool
  inCheck : Bool

/-- The `values` dictionary of `evaluate` (main.py lines 54–55), in its
insertion order. -/
def pieceValues : List (PieceType × Int) :=
  [(.pawn, 1), (.knight, 3), (.bishop, 3), (.rook, 5), (.queen, 9)]

/-- `evaluate` (main.py lines 53–58): the sum over the `values` dictionary of
`len(board.pieces(p, True))*v - len(board.pieces(p, False))*v`.  Python
computes this with integers, hence the codomain `ℤ`. -/
def evaluate (b : Board) : Int :=
  (pieceValues.map (fun pv =>
    ((b.pieces pv.1 true).length : Int) * pv.2
      - ((b.pieces pv.1 false).length : Int) * pv.2)).sum

/-- One entry of the global `explored` list: `{"path": …, "value": …,
"move": …, "depth": …}`. -/
structure TraceNode where
  path : List ((ℚ × ℚ) × (ℚ × ℚ))
  value : Int
  move : Option Move
  depth : Int
deriving DecidableEq

/-- The mutable state the search reads and writes besides `path`: the
board's move stack (`board.push` conses a move, `board.pop` removes the most
recent one) and the module-global `explored` list. -/
structure SearchState where
  stack : List Move
  explored : List TraceNode
deriving DecidableEq

mutual
/-- A position as the search core sees it: the board data, the
`is_game_over()` flag, and `list(board.legal_moves)` paired with the
positions the moves lead to (the result of `board.push(move)`). -/
inductive GameTree where
  | mk : Board → Bool → GTList → GameTree
/-- The ordered legal-move list of a node, each move paired with its
subtree. -/
inductive GTList where
  | nil : GTList
  | cons : Move → GameTree → GTList → GTList
end

def GameTree.board : GameTree → Board
  | .mk b _ _ => b

def GameTree.gameOver : GameTree → Bool
  | .mk _ over _ => over

def GameTree.legal : GameTree → GTList
  | .mk _ _ l => l

def GTList.toList : GTList → List (Move × GameTree)
  | .nil => []
  | .cons m c rest => (m, c) :: rest.toList

mutual
/-- `minimax` (main.py lines 16–51), transcribed line by line.  The result
bundles the returned evaluation with the final contents of the `path` list
and of the mutable state (move stack, global `explored`). -/
def minimax : GameTree → Int → Int → Int → Bool → List ((ℚ × ℚ) × (ℚ × ℚ)) →
    SearchState → Int × List ((ℚ × ℚ) × (ℚ × ℚ)) × SearchState
  | .mk b over _legal, depth, _alpha, _beta, _maximizing, path, s =>
    if depth = 0 ∨ over = true then
      let val := evaluate b
      (val, path, ⟨s.stack, s.explored ++ [⟨path, val, none, depth⟩]⟩)
    else if _maximizing then
      maxLoop _legal depth (-9999) _alpha _beta path s
    else
      minLoop _legal depth 9999 _alpha _beta path s

/-- The `for move in legal_moves` loop of the maximizing branch (main.py
lines 25–37), with `max_eval`, `alpha`, `beta`, `path` and the mutable state
as loop-carried values; the `break` returns immediately. -/
def maxLoop : GTList → Int → Int → Int → Int → List ((ℚ × ℚ) × (ℚ × ℚ)) →
    SearchState → Int × List ((ℚ × ℚ) × (ℚ × ℚ)) × SearchState
  | .nil, _, max_eval, _, _, path, s => (max_eval, path, s)
  | .cons move child rest, depth, max_eval, alpha, beta, path, s =>
    let s1 : SearchState := ⟨move :: s.stack, s.explored⟩
    let path1 := path ++ [segOf move]
    let r := minimax child (depth - 1) alpha beta false path1 s1
    let current := r.1
    let path2 := r.2.1.dropLast
    let s3 : SearchState :=
      ⟨r.2.2.stack.tail, r.2.2.explored ++ [⟨path2, current, some move, depth⟩]⟩
    let max_eval1 := max max_eval current
    let alpha1 := max alpha max_eval1
    if beta ≤ alpha1 then (max_eval1, path2, s3)
    else maxLoop rest depth max_eval1 alpha1 beta path2 s3

/-- The `for move in legal_moves` loop of the minimizing branch (main.py
lines 39–51). -/
def minLoop : GTList → Int → Int → Int → Int → List ((ℚ × ℚ) × (ℚ × ℚ)) →
    SearchState → Int × List ((ℚ × ℚ) × (ℚ × ℚ)) × SearchState
  | .nil, _, min_eval, _, _, path, s => (min_eval, path, s)
  | .cons move child rest, depth, min_eval, alpha, beta, path, s =>
    let s1 : SearchState := ⟨move :: s.stack, s.explored⟩
    let path1 := path ++ [segOf move]
    let r := minimax child (depth - 1) alpha beta true path1 s1
    let current := r.1
    let path2 := r.2.1.dropLast
    let s3 : SearchState :=
      ⟨r.2.2.stack.tail, r.2.2.explored ++ [⟨path2, current, some move, depth⟩]⟩
    let min_eval1 := min min_eval current
    let beta1 := min beta min_eval1
    if beta1 ≤ alpha then (min_eval1, path2, s3)
    else minLoop rest depth min_eval1 alpha beta1 path2 s3
end

/-- The root loop of `minimax_root` for White to move (main.py lines
89–97): each move is pushed, searched with `depth-1`, the sentinel window
`(-9999, 9999)`, `maximizing=False` and the fresh path `[segOf move]`, then
popped; `best_move` is updated only on `val > max_eval`. -/
def rootMaxLoop : GTList → Int → Int → Option Move → SearchState →
    Int × Option Move × SearchState
  | .nil, _, max_eval, best_move, s => (max_eval, best_move, s)
  | .cons move child rest, depth, max_eval, best_move, s =>
    let s1 : SearchState := ⟨move :: s.stack, s.explored⟩
    let r := minimax child (depth - 1) (-9999) 9999 false [segOf move] s1
    let s2 : SearchState := ⟨r.2.2.stack.tail, r.2.2.explored⟩
    if r.1 > max_eval then rootMaxLoop rest depth r.1 (some move) s2
    else rootMaxLoop rest depth max_eval best_move s2

/-- The root loop of `minimax_root` for Black to move (main.py lines
99–106): `maximizing=True` below the root, update on `val < min_eval`. -/
def rootMinLoop : GTList → Int → Int → Option Move → SearchState →
    Int × Option Move × SearchState
  | .nil, _, min_eval, best_move, s => (min_eval, best_move, s)
  | .cons move child rest, depth, min_eval, best_move, s =>
    let s1 : SearchState := ⟨move :: s.stack, s.explored⟩
    let r := minimax child (depth - 1) (-9999) 9999 true [segOf move] s1
    let s2 : SearchState := ⟨r.2.2.stack.tail, r.2.2.explored⟩
    if r.1 < min_eval then rootMinLoop rest depth r.1 (some move) s2
    else rootMinLoop rest depth min_eval best_move s2

/-- `minimax_root` (main.py lines 84–109): iterates the legal moves, chooses
the branch by `board.turn`, and returns `best_move` (with the elapsed wall
time, which is not modelled) together with the final mutable state. -/
def minimax_root (t : GameTree) (depth : Int) (s : SearchState) :
    Option Move × SearchState :=
  match t with
  | .mk b _over legal =>
    if b.turn then
      let r := rootMaxLoop legal depth (-9999) none s
      (r.2.1, r.2.2)
    else
      let r := rootMinLoop legal depth 9999 none s
      (r.2.1, r.2.2)

mutual
/-- The value computed by `minimax`, separated from the trace and stack
bookkeeping (which never influence it); proved to agree with
`(minimax …).1` below. -/
def minimaxV : GameTree → Int → Int → Int → Bool → Int
  | .mk b over _legal, depth, _alpha, _beta, _maximizing =>
    if depth = 0 ∨ over = true then evaluate b
    else if _maximizing then maxLoopV _legal depth (-9999) _alpha _beta
    else minLoopV _legal depth 9999 _alpha _beta

/-- Value computed by the maximizing loop. -/
def maxLoopV : GTList → Int → Int → Int → Int → Int
  | .nil, _, max_eval, _, _ => max_eval
  | .cons _ child rest, depth, max_eval, alpha, beta =>
    let current := minimaxV child (depth - 1) alpha beta false
    let max_eval1 := max max_eval current
    let alpha1 := max alpha max_eval1
    if beta ≤ alpha1 then max_eval1
    else maxLoopV rest depth max_eval1 alpha1 beta

/-- Value computed by the minimizing loop. -/
def minLoopV : GTList → Int → Int → Int → Int → Int
  | .nil, _, min_eval, _, _ => min_eval
  | .cons _ child rest, depth, min_eval, alpha, beta =>
    let current := minimaxV child (depth - 1) alpha beta true
    let min_eval1 := min min_eval current
    let beta1 := min beta min_eval1
    if beta1 ≤ alpha then min_eval1
    else minLoopV rest depth min_eval1 alpha beta1
end

mutual
/-- Modelled from the spec (§8): "the same recursion with alpha-beta
disabled (plain minimax)" — `minimax` with the bound updates and the
`beta ≤ alpha` cutoff removed, values only. -/
def minimaxPlain : GameTree → Int → Bool → Int
  | .mk b over _legal, depth, _maximizing =>
    if depth = 0 ∨ over = true then evaluate b
    else if _maximizing then maxLoopPlain _legal depth (-9999)
    else minLoopPlain _legal depth 9999

/-- Maximizing loop of plain minimax: fold of `max` over all children. -/
def maxLoopPlain : GTList → Int → Int → Int
  | .nil, _, max_eval => max_eval
  | .cons _ child rest, depth, max_eval =>
    maxLoopPlain rest depth (max max_eval (minimaxPlain child (depth - 1) false))

/-- Minimizing loop of plain minimax: fold of `min` over all children. -/
def minLoopPlain : GTList → Int → Int → Int
  | .nil, _, min_eval => min_eval
  | .cons _ child rest, depth, min_eval =>
    minLoopPlain rest depth (min min_eval (minimaxPlain child (depth - 1) true))
end

def GTList.isNilB : GTList → Bool
  | .nil => true
  | .cons _ _ _ => false

mutual
/-- A game tree is `good` when it could come from real chess with this
evaluator: every node's evaluation lies strictly inside the sentinel window
`(-9999, 9999)` (the material sum of a chess position is at most about a
hundred), and a node that is not game over has at least one legal move. -/
def goodT : GameTree → Bool
  | .mk b over legal =>
    decide (-9999 < evaluate b) && decide (evaluate b < 9999) &&
      (over || !legal.isNilB) && goodL legal

/-- All trees of a legal-move list are good. -/
def goodL : GTList → Bool
  | .nil => true
  | .cons _ child rest => goodT child && goodL rest
end

mutual
/-- Every evaluation value occurring in a tree. -/
def treeVals : GameTree → List Int
  | .mk b _ legal => evaluate b :: treeValsL legal

/-- Evaluation values of all trees of a legal-move list. -/
def treeValsL : GTList → List Int
  | .nil => []
  | .cons _ child rest => treeVals child ++ treeValsL rest
end

/-- The value, best-move pair tracked by the White root loop, separated from
the state bookkeeping; proved to agree with `rootMaxLoop` below. -/
def rootBestMax : GTList → Int → Int → Option Move → Int × Option Move
  | .nil, _, max_eval, best_move => (max_eval, best_move)
  | .cons move child rest, depth, max_eval, best_move =>
    let val := minimaxV child (depth - 1) (-9999) 9999 false
    if val > max_eval then rootBestMax rest depth val (some move)
    else rootBestMax rest depth max_eval best_move

/-- The value, best-move pair tracked by the Black root loop. -/
def rootBestMin : GTList → Int → Int → Option Move → Int × Option Move
  | .nil, _, min_eval, best_move => (min_eval, best_move)
  | .cons move child rest, depth, min_eval, best_move =>
    let val := minimaxV child (depth - 1) (-9999) 9999 true
    if val < min_eval then rootBestMin rest depth val (some move)
    else rootBestMin rest depth min_eval best_move

mutual
/-- Modelled from the spec (§4.3): the trace of one `minimax` call in
visitation-completion order — a leaf or terminal node records itself at the
point of evaluation; an expanded node contributes, for each child searched
before the cutoff, that child's full subtree trace followed immediately by
the child's own closing entry, so every descendant's entry precedes the
entry of its ancestor. -/
def traceOf : GameTree → Int → Int → Int → Bool → List ((ℚ × ℚ) × (ℚ × ℚ)) →
    List TraceNode
  | .mk b over _legal, depth, _alpha, _beta, _maximizing, path =>
    if depth = 0 ∨ over = true then [⟨path, evaluate b, none, depth⟩]
    else if _maximizing then traceMaxLoop _legal depth (-9999) _alpha _beta path
    else traceMinLoop _legal depth 9999 _alpha _beta path

/-- Trace blocks contributed by the maximizing loop. -/
def traceMaxLoop : GTList → Int → Int → Int → Int →
    List ((ℚ × ℚ) × (ℚ × ℚ)) → List TraceNode
  | .nil, _, _, _, _, _ => []
  | .cons move child rest, depth, max_eval, alpha, beta, path =>
    let current := minimaxV child (depth - 1) alpha beta false
    let block := traceOf child (depth - 1) alpha beta false (path ++ [segOf move])
      ++ [⟨path, current, some move, depth⟩]
    let max_eval1 := max max_eval current
    let alpha1 := max alpha max_eval1
    if beta ≤ alpha1 then block
    else block ++ traceMaxLoop rest depth max_eval1 alpha1 beta path

/-- Trace blocks contributed by the minimizing loop. -/
def traceMinLoop : GTList → Int → Int → Int → Int →
    List ((ℚ × ℚ) × (ℚ × ℚ)) → List TraceNode
  | .nil, _, _, _, _, _ => []
  | .cons move child rest, depth, min_eval, alpha, beta, path =>
    let current := minimaxV child (depth - 1) alpha beta true
    let block := traceOf child (depth - 1) alpha beta true (path ++ [segOf move])
      ++ [⟨path, current, some move, depth⟩]
    let min_eval1 := min min_eval current
    let beta1 := min beta min_eval1
    if beta1 ≤ alpha then block
    else block ++ traceMinLoop rest depth min_eval1 alpha beta1 path
end

/-- A square of the central 4×4 region: file and rank indices 2–5,
zero-based (spec §4.1). -/
def centralSquare (sq : Nat) : Bool :=
  decide (2 ≤ square_file sq) && decide (square_file sq ≤ 5) &&
    decide (2 ≤ square_rank sq) && decide (square_rank sq ≤ 5)

/-- Every piece kind, for scanning the whole occupancy. -/
def allPieceKinds : List PieceType :=
  [.pawn, .knight, .bishop, .rook, .queen, .king]

/-- Number of pieces of one colour standing on central squares. -/
def centralCount (b : Board) (color : Bool) : Nat :=
  (allPieceKinds.map (fun p => ((b.pieces p color).filter centralSquare).length)).sum

/-- Modelled from the spec (§4.1): the evaluator the specification
describes — material difference, plus `+0.5` for every White piece and
`-0.5` for every Black piece on a central square, plus a check-threat term
of `-0.5` when White is to move and in check and `+0.5` when Black is to
move and in check. -/
def evaluateSpec (b : Board) : ℚ :=
  ((pieceValues.map (fun pv =>
    ((b.pieces pv.1 true).length : Int) * pv.2
      - ((b.pieces pv.1 false).length : Int) * pv.2)).sum : ℚ)
    + (1/2) * (centralCount b true : ℚ) - (1/2) * (centralCount b false : ℚ)
    + (if b.inCheck then (if b.turn then -(1/2) else (1/2)) else 0)

/-- The amended reading of the evaluator: the pure material difference,
White minus Black, weighted pawn 1, knight 3, bishop 3, rook 5, queen 9,
written out kind by kind. -/
def materialSpec (b : Board) : ℚ :=
  (((b.pieces .pawn true).length : ℚ) - ((b.pieces .pawn false).length : ℚ)) * 1
    + (((b.pieces .knight true).length : ℚ) - ((b.pieces .knight false).length : ℚ)) * 3
    + (((b.pieces .bishop true).length : ℚ) - ((b.pieces .bishop false).length : ℚ)) * 3
    + (((b.pieces .rook true).length : ℚ) - ((b.pieces .rook false).length : ℚ)) * 5
    + (((b.pieces .queen true).length : ℚ) - ((b.pieces .queen false).length : ℚ)) * 9

/-- The standard chess starting position (squares numbered 0–63, file-major
within each rank), White to move, not in check. -/
def startBoard : Board where
  pieces := fun p c =>
    match p, c with
    | .pawn, true => [8, 9, 10, 11, 12, 13, 14, 15]
    | .knight, true => [1, 6]
    | .bishop, true => [2, 5]
    | .rook, true => [0, 7]
    | .queen, true => [3]
    | .king, true => [4]
    | .pawn, false => [48, 49, 50, 51, 52, 53, 54, 55]
    | .knight, false => [57, 62]
    | .bishop, false => [58, 61]
    | .rook, false => [56, 63]
    | .queen, false => [59]
    | .king, false => [60]
  turn := true
  inCheck := false

/-- A board with `w` White and `bk` Black pawns (on arbitrary distinct
squares), used to build small concrete positions of a given material
balance: `evaluate (pawnBoard w bk) = w - bk`. -/
def pawnBoard (w bk : Nat) : Board :=
  ⟨fun p c =>
    match p, c with
    | .pawn, true => List.range w
    | .pawn, false => List.range bk
    | _, _ => [], true, false⟩

/-- A game-over leaf of material balance `w - bk`. -/
def leafT (w bk : Nat) : GameTree := .mk (pawnBoard w bk) true .nil

def mvA : Move := ⟨8, 16⟩
def mvB : Move := ⟨9, 17⟩
def mvC : Move := ⟨10, 18⟩

/-- An empty initial state: empty move stack, empty global `explored`. -/
def st0 : SearchState := ⟨[], []⟩

/-- A depth-2 tree on which the alpha-beta cutoff actually fires (the
second child's second grandchild is pruned). -/
def twit : GameTree :=
  .mk (pawnBoard 0 0) false
    (.cons mvA (.mk (pawnBoard 1 1) false
        (.cons mvA (leafT 3 0) (.cons mvB (leafT 5 0) .nil)))
      (.cons mvB (.mk (pawnBoard 1 1) false
        (.cons mvA (leafT 2 0) (.cons mvB (leafT 10 0) .nil)))
        .nil))

/-- A non-terminal position with one legal move leading to a game-over
position of value 5; the root itself evaluates to 0. -/
def tneg : GameTree := .mk (pawnBoard 0 0) false (.cons mvA (leafT 5 0) .nil)

/-- A game-over position with no legal moves, material balance `+1`. -/
def temptyA : GameTree := .mk (pawnBoard 1 0) true .nil

/-- A game-over position with no legal moves, material balance `+2`. -/
def temptyB : GameTree := .mk (pawnBoard 2 0) true .nil

/-- A position with two legal moves leading to game-over leaves. -/
def tsmall : GameTree :=
  .mk (pawnBoard 0 0) false (.cons mvA (leafT 1 0) (.cons mvB (leafT 0 1) .nil))

/-- Three legal moves, the first two tied at the optimal score `3`, the
third worse. -/
def ttieL : GTList :=
  .cons mvA (leafT 3 0) (.cons mvB (leafT 3 0) (.cons mvC (leafT 1 0) .nil))

/-- The board of the C1 counterexample: a single White pawn on e4
(square 28: file 4, rank 3, inside the central region), a Black pawn on a7
(square 48, outside it), Black to move, not in check. -/
def boardE4 : Board :=
  ⟨fun p c =>
    match p, c with
    | .pawn, true => [28]
    | .pawn, false => [48]
    | _, _ => [], false, false⟩

/-- Trace entries appended by the White root loop: the subtree trace of each
root move in order, with no closing entry at the root. -/
def rootTraceOfMax : GTList → Int → List TraceNode
  | .nil, _ => []
  | .cons move child rest, depth =>
    traceOf child (depth - 1) (-9999) 9999 false [segOf move]
      ++ rootTraceOfMax rest depth

/-- Trace entries appended by the Black root loop. -/
def rootTraceOfMin : GTList → Int → List TraceNode
  | .nil, _ => []
  | .cons move child rest, depth =>
    traceOf child (depth - 1) (-9999) 9999 true [segOf move]
      ++ rootTraceOfMin rest depth

/-- Trace entries appended by one whole `minimax_root` invocation. -/
def rootTraceOf (t : GameTree) (depth : Int) : List TraceNode :=
  match t with
  | .mk b _ legal =>
    if b.turn then rootTraceOfMax legal depth else rootTraceOfMin legal depth

/-- The score the White root loop computes for one root move. -/
def rootValW (depth : Int) (mc : Move × GameTree) : Int :=
  minimaxV mc.2 (depth - 1) (-9999) 9999 false

/-- The score the Black root loop computes for one root move. -/
def rootValB (depth : Int) (mc : Move × GameTree) : Int :=
  minimaxV mc.2 (depth - 1) (-9999) 9999 true

/-- The best (maximal) root score over a move list, folded from `me`. -/
def bestValW (l : GTList) (depth me : Int) : Int :=
  (l.toList.map (rootValW depth)).foldl max me

/-- The best (minimal) root score over a move list, folded from `me`. -/
def bestValB (l : GTList) (depth me : Int) : Int :=
  (l.toList.map (rootValB depth)).foldl min me

/-- Two boards hold the same number of pieces of every kind and colour. -/
def sameCounts (b b2 : Board) : Bool :=
  allPieceKinds.all (fun p =>
    ((b.pieces p true).length == (b2.pieces p true).length) &&
      ((b.pieces p false).length == (b2.pieces p false).length))

/-- The position after the double pawn advance e2–e4: the White e-pawn moved
from square 12 to square 28, Black to move. -/
def boardAfterE4 : Board :=
  ⟨fun p c =>
    match p, c with
    | .pawn, true => [8, 9, 10, 11, 28, 13, 14, 15]
    | .knight, true => [1, 6]
    | .bishop, true => [2, 5]
    | .rook, true => [0, 7]
    | .queen, true => [3]
    | .king, true => [4]
    | .pawn, false => [48, 49, 50, 51, 52, 53, 54, 55]
    | .knight, false => [57, 62]
    | .bishop, false => [58, 61]
    | .rook, false => [56, 63]
    | .queen, false => [59]
    | .king, false => [60]
  , false, false⟩

/-! ## The value returned by `minimax` does not depend on the threaded state -/

mutual
theorem minimax_val (t : GameTree) (depth alpha beta : Int) (maximizing : Bool)
    (p : List ((ℚ × ℚ) × (ℚ × ℚ))) (s : SearchState) :
    (minimax t depth alpha beta maximizing p s).1 =
      minimaxV t depth alpha beta maximizing := by
  cases t with
  | mk b over legal =>
    simp only [minimax, minimaxV]
    by_cases h : depth = 0 ∨ over = true
    · simp [h]
    · simp only [if_neg h]
      cases maximizing with
      | true =>
        simpa using maxLoop_val legal depth (-9999) alpha beta p s
      | false =>
        simpa using minLoop_val legal depth 9999 alpha beta p s

theorem maxLoop_val (l : GTList) (depth max_eval alpha beta : Int)
    (p : List ((ℚ × ℚ) × (ℚ × ℚ))) (s : SearchState) :
    (maxLoop l depth max_eval alpha beta p s).1 =
      maxLoopV l depth max_eval alpha beta := by
  cases l with
  | nil => rfl
  | cons move child rest =>
    simp only [maxLoop, maxLoopV]
    rw [minimax_val child (depth - 1) alpha beta false (p ++ [segOf move])
      ⟨move :: s.stack, s.explored⟩]
    split
    · rfl
    · exact maxLoop_val rest depth _ _ beta _ _

theorem minLoop_val (l : GTList) (depth min_eval alpha beta : Int)
    (p : List ((ℚ × ℚ) × (ℚ × ℚ))) (s : SearchState) :
    (minLoop l depth min_eval alpha beta p s).1 =
      minLoopV l depth min_eval alpha beta := by
  cases l with
  | nil => rfl
  | cons move child rest =>
    simp only [minLoop, minLoopV]
    rw [minimax_val child (depth - 1) alpha beta true (p ++ [segOf move])
      ⟨move :: s.stack, s.explored⟩]
    split
    · rfl
    · exact minLoop_val rest depth _ alpha _ _ _
end

/-! ## Frame lemmas: `minimax` restores the path and the move stack -/

mutual
theorem minimax_frame (t : GameTree) (depth alpha beta : Int) (maximizing : Bool)
    (p : List ((ℚ × ℚ) × (ℚ × ℚ))) (s : SearchState) :
    (minimax t depth alpha beta maximizing p s).2.1 = p ∧
      (minimax t depth alpha beta maximizing p s).2.2.stack = s.stack := by
  cases t with
  | mk b over legal =>
    simp only [minimax]
    by_cases h : depth = 0 ∨ over = true
    · simp [h]
    · simp only [if_neg h]
      cases maximizing with
      | true => simpa using maxLoop_frame legal depth (-9999) alpha beta p s
      | false => simpa using minLoop_frame legal depth 9999 alpha beta p s

theorem maxLoop_frame (l : GTList) (depth max_eval alpha beta : Int)
    (p : List ((ℚ × ℚ) × (ℚ × ℚ))) (s : SearchState) :
    (maxLoop l depth max_eval alpha beta p s).2.1 = p ∧
      (maxLoop l depth max_eval alpha beta p s).2.2.stack = s.stack := by
  cases l with
  | nil => exact ⟨rfl, rfl⟩
  | cons move child rest =>
    simp only [maxLoop]
    have hf := minimax_frame child (depth - 1) alpha beta false
      (p ++ [segOf move]) ⟨move :: s.stack, s.explored⟩
    rw [hf.1, hf.2, List.dropLast_concat]
    split
    · exact ⟨rfl, rfl⟩
    · exact maxLoop_frame rest depth _ _ beta p _

theorem minLoop_frame (l : GTList) (depth min_eval alpha beta : Int)
    (p : List ((ℚ × ℚ) × (ℚ × ℚ))) (s : SearchState) :
    (minLoop l depth min_eval alpha beta p s).2.1 = p ∧
      (minLoop l depth min_eval alpha beta p s).2.2.stack = s.stack := by
  cases l with
  | nil => exact ⟨rfl, rfl⟩
  | cons move child rest =>
    simp only [minLoop]
    have hf := minimax_frame child (depth - 1) alpha beta true
      (p ++ [segOf move]) ⟨move :: s.stack, s.explored⟩
    rw [hf.1, hf.2, List.dropLast_concat]
    split
    · exact ⟨rfl, rfl⟩
    · exact minLoop_frame rest depth _ alpha _ p _
end

/-! ## The global trace grows exactly by the post-order trace `traceOf` -/

mutual
theorem minimax_trace (t : GameTree) (depth alpha beta : Int) (maximizing : Bool)
    (p : List ((ℚ × ℚ) × (ℚ × ℚ))) (s : SearchState) :
    (minimax t depth alpha beta maximizing p s).2.2.explored =
      s.explored ++ traceOf t depth alpha beta maximizing p := by
  cases t with
  | mk b over legal =>
    simp only [minimax, traceOf]
    by_cases h : depth = 0 ∨ over = true
    · simp [h]
    · simp only [if_neg h]
      cases maximizing with
      | true => simpa using maxLoop_trace legal depth (-9999) alpha beta p s
      | false => simpa using minLoop_trace legal depth 9999 alpha beta p s

theorem maxLoop_trace (l : GTList) (depth max_eval alpha beta : Int)
    (p : List ((ℚ × ℚ) × (ℚ × ℚ))) (s : SearchState) :
    (maxLoop l depth max_eval alpha beta p s).2.2.explored =
      s.explored ++ traceMaxLoop l depth max_eval alpha beta p := by
  cases l with
  | nil => simp [maxLoop, traceMaxLoop]
  | cons move child rest =>
    simp only [maxLoop, traceMaxLoop]
    have hf := minimax_frame child (depth - 1) alpha beta false
      (p ++ [segOf move]) ⟨move :: s.stack, s.explored⟩
    have ht := minimax_trace child (depth - 1) alpha beta false
      (p ++ [segOf move]) ⟨move :: s.stack, s.explored⟩
    rw [minimax_val child (depth - 1) alpha beta false (p ++ [segOf move])
      ⟨move :: s.stack, s.explored⟩, hf.1, List.dropLast_concat, ht]
    split
    · simp
    · rw [maxLoop_trace rest depth _ _ beta p _]
      simp
 
theorem minLoop_trace (l : GTList) (depth min_eval alpha beta : Int)
    (p : List ((ℚ × ℚ) × (ℚ × ℚ))) (s : SearchState) :
    (minLoop l depth min_eval alpha beta p s).2.2.explored =
      s.explored ++ traceMinLoop l depth min_eval alpha beta p := by
  cases l with
  | nil => simp [minLoop, traceMinLoop]
  | cons move child rest =>
    simp only [minLoop, traceMinLoop]
    have hf := minimax_frame child (depth - 1) alpha beta true
      (p ++ [segOf move]) ⟨move :: s.stack, s.explored⟩
    have ht := minimax_trace child (depth - 1) alpha beta true
      (p ++ [segOf move]) ⟨move :: s.stack, s.explored⟩
    rw [minimax_val child (depth - 1) alpha beta true (p ++ [segOf move])
      ⟨move :: s.stack, s.explored⟩, hf.1, List.dropLast_concat, ht]
    split
    · simp
    · rw [minLoop_trace rest depth _ alpha _ p _]
      simp
end

/-! ## Root-loop lemmas -/

theorem rootMaxLoop_val (l : GTList) (depth max_eval : Int) (best_move : Option Move)
    (s : SearchState) :
    (rootMaxLoop l depth max_eval best_move s).1 = (rootBestMax l depth max_eval best_move).1 ∧
      (rootMaxLoop l depth max_eval best_move s).2.1 = (rootBestMax l depth max_eval best_move).2 := by
  cases l with
  | nil => exact ⟨rfl, rfl⟩
  | cons move child rest =>
    simp only [rootMaxLoop, rootBestMax]
    rw [minimax_val child (depth - 1) (-9999) 9999 false [segOf move]
      ⟨move :: s.stack, s.explored⟩]
    split
    · exact rootMaxLoop_val rest depth _ _ _
    · exact rootMaxLoop_val rest depth _ _ _

theorem rootMinLoop_val (l : GTList) (depth min_eval : Int) (best_move : Option Move)
    (s : SearchState) :
    (rootMinLoop l depth min_eval best_move s).1 = (rootBestMin l depth min_eval best_move).1 ∧
      (rootMinLoop l depth min_eval best_move s).2.1 = (rootBestMin l depth min_eval best_move).2 := by
  cases l with
  | nil => exact ⟨rfl, rfl⟩
  | cons move child rest =>
    simp only [rootMinLoop, rootBestMin]
    rw [minimax_val child (depth - 1) (-9999) 9999 true [segOf move]
      ⟨move :: s.stack, s.explored⟩]
    split
    · exact rootMinLoop_val rest depth _ _ _
    · exact rootMinLoop_val rest depth _ _ _

theorem rootMaxLoop_stack (l : GTList) (depth max_eval : Int) (best_move : Option Move)
    (s : SearchState) :
    (rootMaxLoop l depth max_eval best_move s).2.2.stack = s.stack := by
  cases l with
  | nil => rfl
  | cons move child rest =>
    simp only [rootMaxLoop]
    have hf := minimax_frame child (depth - 1) (-9999) 9999 false [segOf move]
      ⟨move :: s.stack, s.explored⟩
    rw [hf.2]
    split
    · exact rootMaxLoop_stack rest depth _ _ _
    · exact rootMaxLoop_stack rest depth _ _ _

theorem rootMinLoop_stack (l : GTList) (depth min_eval : Int) (best_move : Option Move)
    (s : SearchState) :
    (rootMinLoop l depth min_eval best_move s).2.2.stack = s.stack := by
  cases l with
  | nil => rfl
  | cons move child rest =>
    simp only [rootMinLoop]
    have hf := minimax_frame child (depth - 1) (-9999) 9999 true [segOf move]
      ⟨move :: s.stack, s.explored⟩
    rw [hf.2]
    split
    · exact rootMinLoop_stack rest depth _ _ _
    · exact rootMinLoop_stack rest depth _ _ _

theorem rootMaxLoop_trace (l : GTList) (depth max_eval : Int) (best_move : Option Move)
    (s : SearchState) :
    (rootMaxLoop l depth max_eval best_move s).2.2.explored =
      s.explored ++ rootTraceOfMax l depth := by
  cases l with
  | nil => simp [rootMaxLoop, rootTraceOfMax]
  | cons move child rest =>
    simp only [rootMaxLoop, rootTraceOfMax]
    have ht := minimax_trace child (depth - 1) (-9999) 9999 false [segOf move]
      ⟨move :: s.stack, s.explored⟩
    split
    · rw [rootMaxLoop_trace rest depth _ _ _]
      simp only [ht]
      simp
    · rw [rootMaxLoop_trace rest depth _ _ _]
      simp only [ht]
      simp

theorem rootMinLoop_trace (l : GTList) (depth min_eval : Int) (best_move : Option Move)
    (s : SearchState) :
    (rootMinLoop l depth min_eval best_move s).2.2.explored =
      s.explored ++ rootTraceOfMin l depth := by
  cases l with
  | nil => simp [rootMinLoop, rootTraceOfMin]
  | cons move child rest =>
    simp only [rootMinLoop, rootTraceOfMin]
    have ht := minimax_trace child (depth - 1) (-9999) 9999 true [segOf move]
      ⟨move :: s.stack, s.explored⟩
    split
    · rw [rootMinLoop_trace rest depth _ _ _]
      simp only [ht]
      simp
    · rw [rootMinLoop_trace rest depth _ _ _]
      simp only [ht]
      simp

theorem minimax_root_best (b : Board) (over : Bool) (l : GTList) (depth : Int)
    (s : SearchState) :
    (minimax_root (.mk b over l) depth s).1 =
      if b.turn then (rootBestMax l depth (-9999) none).2
      else (rootBestMin l depth 9999 none).2 := by
  simp only [minimax_root]
  split
  · exact (rootMaxLoop_val l depth (-9999) none s).2
  · exact (rootMinLoop_val l depth 9999 none s).2

theorem minimax_root_stack (t : GameTree) (depth : Int) (s : SearchState) :
    (minimax_root t depth s).2.stack = s.stack := by
  cases t with
  | mk b over l =>
    simp only [minimax_root]
    split
    · exact rootMaxLoop_stack l depth (-9999) none s
    · exact rootMinLoop_stack l depth 9999 none s

theorem minimax_root_trace (t : GameTree) (depth : Int) (s : SearchState) :
    (minimax_root t depth s).2.explored = s.explored ++ rootTraceOf t depth := by
  cases t with
  | mk b over l =>
    simp only [minimax_root, rootTraceOf]
    by_cases h : b.turn
    · simp only [if_pos h]
      exact rootMaxLoop_trace l depth (-9999) none s
    · simp only [if_neg h]
      exact rootMinLoop_trace l depth 9999 none s

/-! ## Order lemmas about the loop values -/

theorem maxLoopV_ge (l : GTList) (depth max_eval alpha beta : Int) :
    max_eval ≤ maxLoopV l depth max_eval alpha beta := by
  cases l with
  | nil => exact le_refl _
  | cons move child rest =>
    simp only [maxLoopV]
    split
    · omega
    · have := maxLoopV_ge rest depth
        (max max_eval (minimaxV child (depth - 1) alpha beta false))
        (max alpha (max max_eval (minimaxV child (depth - 1) alpha beta false))) beta
      omega

theorem minLoopV_le (l : GTList) (depth min_eval alpha beta : Int) :
    minLoopV l depth min_eval alpha beta ≤ min_eval := by
  cases l with
  | nil => exact le_refl _
  | cons move child rest =>
    simp only [minLoopV]
    split
    · omega
    · have := minLoopV_le rest depth
        (min min_eval (minimaxV child (depth - 1) alpha beta true))
        alpha (min beta (min min_eval (minimaxV child (depth - 1) alpha beta true)))
      omega

theorem maxLoopPlain_ge (l : GTList) (depth max_eval : Int) :
    max_eval ≤ maxLoopPlain l depth max_eval := by
  cases l with
  | nil => exact le_refl _
  | cons move child rest =>
    simp only [maxLoopPlain]
    have := maxLoopPlain_ge rest depth
      (max max_eval (minimaxPlain child (depth - 1) false))
    omega

theorem minLoopPlain_le (l : GTList) (depth min_eval : Int) :
    minLoopPlain l depth min_eval ≤ min_eval := by
  cases l with
  | nil => exact le_refl _
  | cons move child rest =>
    simp only [minLoopPlain]
    have := minLoopPlain_le rest depth
      (min min_eval (minimaxPlain child (depth - 1) true))
    omega

theorem maxLoopPlain_max (l : GTList) (depth x y : Int) :
    maxLoopPlain l depth (max x y) = max (maxLoopPlain l depth x) y := by
  cases l with
  | nil => rfl
  | cons move child rest =>
    simp only [maxLoopPlain]
    rw [show max (max x y) (minimaxPlain child (depth - 1) false) =
        max (max x (minimaxPlain child (depth - 1) false)) y by omega]
    exact maxLoopPlain_max rest depth (max x (minimaxPlain child (depth - 1) false)) y

theorem minLoopPlain_min (l : GTList) (depth x y : Int) :
    minLoopPlain l depth (min x y) = min (minLoopPlain l depth x) y := by
  cases l with
  | nil => rfl
  | cons move child rest =>
    simp only [minLoopPlain]
    rw [show min (min x y) (minimaxPlain child (depth - 1) true) =
        min (min x (minimaxPlain child (depth - 1) true)) y by omega]
    exact minLoopPlain_min rest depth (min x (minimaxPlain child (depth - 1) true)) y

/-! ## Fail-soft alpha-beta versus plain minimax

The classical three-way invariant: inside the window the pruned value is
exact; outside the window it is a one-sided bound on the plain value. -/

mutual
theorem ab_node (t : GameTree) (depth alpha beta : Int) (maximizing : Bool)
    (hab : alpha < beta) :
    (minimaxV t depth alpha beta maximizing ≤ alpha →
      minimaxPlain t depth maximizing ≤ minimaxV t depth alpha beta maximizing) ∧
    (beta ≤ minimaxV t depth alpha beta maximizing →
      minimaxV t depth alpha beta maximizing ≤ minimaxPlain t depth maximizing) ∧
    (alpha < minimaxV t depth alpha beta maximizing →
      minimaxV t depth alpha beta maximizing < beta →
      minimaxV t depth alpha beta maximizing = minimaxPlain t depth maximizing) := by
  cases t with
  | mk b over legal =>
    simp only [minimaxV, minimaxPlain]
    by_cases h : depth = 0 ∨ over = true
    · simp only [if_pos h]
      exact ⟨fun _ => le_refl _, fun _ => le_refl _, fun _ _ => trivial⟩
    · simp only [if_neg h]
      cases maximizing with
      | true => simpa using ab_maxLoop legal depth (-9999) alpha beta hab
      | false => simpa using ab_minLoop legal depth 9999 alpha beta hab

theorem ab_maxLoop (l : GTList) (depth max_eval alpha beta : Int)
    (hab : alpha < beta) :
    (maxLoopV l depth max_eval alpha beta ≤ alpha →
      maxLoopPlain l depth max_eval ≤ maxLoopV l depth max_eval alpha beta) ∧
    (beta ≤ maxLoopV l depth max_eval alpha beta →
      maxLoopV l depth max_eval alpha beta ≤ maxLoopPlain l depth max_eval) ∧
    (alpha < maxLoopV l depth max_eval alpha beta →
      maxLoopV l depth max_eval alpha beta < beta →
      maxLoopV l depth max_eval alpha beta = maxLoopPlain l depth max_eval) := by
  cases l with
  | nil => exact ⟨fun _ => le_refl _, fun _ => le_refl _, fun _ _ => rfl⟩
  | cons move child rest =>
    simp only [maxLoopV, maxLoopPlain]
    have hC := ab_node child (depth - 1) alpha beta false hab
    generalize hc : minimaxV child (depth - 1) alpha beta false = c
    rw [hc] at hC
    generalize hv : minimaxPlain child (depth - 1) false = cv
    rw [hv] at hC
    obtain ⟨hC1, hC2, hC3⟩ := hC
    by_cases hcut : beta ≤ max alpha (max max_eval c)
    · rw [if_pos hcut]
      have hbme : beta ≤ max max_eval c := by omega
      have hge := maxLoopPlain_ge rest depth (max max_eval cv)
      refine ⟨fun h1 => by omega, fun h1 => ?_, fun h1 h2 => by omega⟩
      by_cases hbc : beta ≤ c
      · have := hC2 hbc
        omega
      · omega
    · rw [if_neg hcut]
      have ha1 : max alpha (max max_eval c) < beta := by omega
      obtain ⟨hR1, hR2, hR3⟩ := ab_maxLoop rest depth (max max_eval c)
        (max alpha (max max_eval c)) beta ha1
      have hvge := maxLoopV_ge rest depth (max max_eval c)
        (max alpha (max max_eval c)) beta
      have hge2 := maxLoopPlain_ge rest depth (max max_eval c)
      rcases le_or_lt c alpha with hclow | hchigh
      · have hcva : cv ≤ c := hC1 hclow
        have hw : maxLoopPlain rest depth (max max_eval c) =
            max (maxLoopPlain rest depth (max max_eval cv)) c := by
          rw [show (max max_eval c) = max (max max_eval cv) c by omega]
          exact maxLoopPlain_max rest depth (max max_eval cv) c
        refine ⟨fun h1 => ?_, fun h1 => ?_, fun h1 h2 => ?_⟩
        · have := hR1 (by omega)
          omega
        · have := hR2 h1
          omega
        · by_cases hm : max max_eval c < maxLoopV rest depth (max max_eval c)
              (max alpha (max max_eval c)) beta
          · have := hR3 (by omega) h2
            omega
          · have := hR1 (by omega)
            omega
      · rcases lt_or_le c beta with hcin | hchigh2
        · have hcveq : c = cv := hC3 hchigh hcin
          rw [← hcveq]
          refine ⟨fun h1 => ?_, fun h1 => ?_, fun h1 h2 => ?_⟩
          · have := hR1 (by omega)
            omega
          · have := hR2 h1
            omega
          · by_cases hm : max max_eval c < maxLoopV rest depth (max max_eval c)
                (max alpha (max max_eval c)) beta
            · have := hR3 (by omega) h2
              omega
            · have := hR1 (by omega)
              omega
        · exact absurd ha1 (by omega)

theorem ab_minLoop (l : GTList) (depth min_eval alpha beta : Int)
    (hab : alpha < beta) :
    (minLoopV l depth min_eval alpha beta ≤ alpha →
      minLoopPlain l depth min_eval ≤ minLoopV l depth min_eval alpha beta) ∧
    (beta ≤ minLoopV l depth min_eval alpha beta →
      minLoopV l depth min_eval alpha beta ≤ minLoopPlain l depth min_eval) ∧
    (alpha < minLoopV l depth min_eval alpha beta →
      minLoopV l depth min_eval alpha beta < beta →
      minLoopV l depth min_eval alpha beta = minLoopPlain l depth min_eval) := by
  cases l with
  | nil => exact ⟨fun _ => le_refl _, fun _ => le_refl _, fun _ _ => rfl⟩
  | cons move child rest =>
    simp only [minLoopV, minLoopPlain]
    have hC := ab_node child (depth - 1) alpha beta true hab
    generalize hc : minimaxV child (depth - 1) alpha beta true = c
    rw [hc] at hC
    generalize hv : minimaxPlain child (depth - 1) true = cv
    rw [hv] at hC
    obtain ⟨hC1, hC2, hC3⟩ := hC
    by_cases hcut : min beta (min min_eval c) ≤ alpha
    · rw [if_pos hcut]
      have hma : min min_eval c ≤ alpha := by omega
      have hle := minLoopPlain_le rest depth (min min_eval cv)
      refine ⟨fun h1 => ?_, fun h1 => by omega, fun h1 h2 => by omega⟩
      by_cases hca : c ≤ alpha
      · have := hC1 hca
        omega
      · omega
    · rw [if_neg hcut]
      have hb1 : alpha < min beta (min min_eval c) := by omega
      obtain ⟨hR1, hR2, hR3⟩ := ab_minLoop rest depth (min min_eval c)
        alpha (min beta (min min_eval c)) hb1
      have hvle := minLoopV_le rest depth (min min_eval c)
        alpha (min beta (min min_eval c))
      have hle2 := minLoopPlain_le rest depth (min min_eval c)
      rcases lt_or_le alpha c with hcg | hclow
      · rcases lt_or_le c beta with hcin | hcbig
        · have hcveq : c = cv := hC3 hcg hcin
          rw [← hcveq]
          refine ⟨fun h1 => ?_, fun h1 => ?_, fun h1 h2 => ?_⟩
          · have := hR1 h1
            omega
          · omega
          · by_cases hm : minLoopV rest depth (min min_eval c)
                alpha (min beta (min min_eval c)) < min beta (min min_eval c)
            · have := hR3 h1 hm
              omega
            · have := hR2 (by omega)
              omega
        · have hccv : c ≤ cv := hC2 hcbig
          have hw : minLoopPlain rest depth (min min_eval c) =
              min (minLoopPlain rest depth (min min_eval cv)) c := by
            rw [show (min min_eval c) = min (min min_eval cv) c by omega]
            exact minLoopPlain_min rest depth (min min_eval cv) c
          refine ⟨fun h1 => ?_, fun h1 => ?_, fun h1 h2 => ?_⟩
          · have := hR1 h1
            omega
          · have := hR2 (by omega)
            omega
          · by_cases hm : minLoopV rest depth (min min_eval c)
                alpha (min beta (min min_eval c)) < min beta (min min_eval c)
            · have := hR3 h1 hm
              omega
            · have := hR2 (by omega)
              omega
      · exact absurd hb1 (by omega)
end

/-! ## Strict sentinel bounds on values of good trees -/

mutual
theorem minimaxV_bounds (t : GameTree) (depth alpha beta : Int) (maximizing : Bool)
    (hg : goodT t = true) :
    -9999 < minimaxV t depth alpha beta maximizing ∧
      minimaxV t depth alpha beta maximizing < 9999 := by
  cases t with
  | mk b over legal =>
    simp only [goodT, Bool.and_eq_true, decide_eq_true_eq] at hg
    obtain ⟨⟨⟨h1, h2⟩, h3⟩, h4⟩ := hg
    simp only [minimaxV]
    by_cases h : depth = 0 ∨ over = true
    · rw [if_pos h]
      omega
    · rw [if_neg h]
      have hover : over = false := by
        cases over
        · rfl
        · exact absurd (Or.inr rfl) h
      rw [hover] at h3
      cases legal with
      | nil => simp [GTList.isNilB] at h3
      | cons move child rest =>
        simp only [goodL, Bool.and_eq_true] at h4
        obtain ⟨hgc, hgr⟩ := h4
        cases maximizing with
        | true =>
          rw [if_pos rfl]
          simp only [maxLoopV]
          have hc := minimaxV_bounds child (depth - 1) alpha beta false hgc
          by_cases hcut : beta ≤ max alpha
              (max (-9999) (minimaxV child (depth - 1) alpha beta false))
          · rw [if_pos hcut]
            omega
          · rw [if_neg hcut]
            have hrec := maxLoopV_bounds rest depth
              (max (-9999) (minimaxV child (depth - 1) alpha beta false))
              (max alpha (max (-9999) (minimaxV child (depth - 1) alpha beta false)))
              beta hgr
            rcases hrec with hrec | hrec <;> omega
        | false =>
          rw [if_neg (by simp)]
          simp only [minLoopV]
          have hc := minimaxV_bounds child (depth - 1) alpha beta true hgc
          by_cases hcut : min beta
              (min 9999 (minimaxV child (depth - 1) alpha beta true)) ≤ alpha
          · rw [if_pos hcut]
            omega
          · rw [if_neg hcut]
            have hrec := minLoopV_bounds rest depth
              (min 9999 (minimaxV child (depth - 1) alpha beta true))
              alpha
              (min beta (min 9999 (minimaxV child (depth - 1) alpha beta true)))
              hgr
            rcases hrec with hrec | hrec <;> omega

theorem maxLoopV_bounds (l : GTList) (depth max_eval alpha beta : Int)
    (hg : goodL l = true) :
    maxLoopV l depth max_eval alpha beta = max_eval ∨
      (-9999 < maxLoopV l depth max_eval alpha beta ∧
        maxLoopV l depth max_eval alpha beta < 9999) := by
  cases l with
  | nil => exact Or.inl rfl
  | cons move child rest =>
    simp only [goodL, Bool.and_eq_true] at hg
    obtain ⟨hgc, hgr⟩ := hg
    simp only [maxLoopV]
    have hc := minimaxV_bounds child (depth - 1) alpha beta false hgc
    by_cases hcut : beta ≤ max alpha
        (max max_eval (minimaxV child (depth - 1) alpha beta false))
    · rw [if_pos hcut]
      omega
    · rw [if_neg hcut]
      have hrec := maxLoopV_bounds rest depth
        (max max_eval (minimaxV child (depth - 1) alpha beta false))
        (max alpha (max max_eval (minimaxV child (depth - 1) alpha beta false)))
        beta hgr
      rcases hrec with hrec | hrec <;> omega

theorem minLoopV_bounds (l : GTList) (depth min_eval alpha beta : Int)
    (hg : goodL l = true) :
    minLoopV l depth min_eval alpha beta = min_eval ∨
      (-9999 < minLoopV l depth min_eval alpha beta ∧
        minLoopV l depth min_eval alpha beta < 9999) := by
  cases l with
  | nil => exact Or.inl rfl
  | cons move child rest =>
    simp only [goodL, Bool.and_eq_true] at hg
    obtain ⟨hgc, hgr⟩ := hg
    simp only [minLoopV]
    have hc := minimaxV_bounds child (depth - 1) alpha beta true hgc
    by_cases hcut : min beta
        (min min_eval (minimaxV child (depth - 1) alpha beta true)) ≤ alpha
    · rw [if_pos hcut]
      omega
    · rw [if_neg hcut]
      have hrec := minLoopV_bounds rest depth
        (min min_eval (minimaxV child (depth - 1) alpha beta true))
        alpha
        (min beta (min min_eval (minimaxV child (depth - 1) alpha beta true)))
        hgr
      rcases hrec with hrec | hrec <;> omega
end

/-- On any good tree, alpha-beta search over the full sentinel window
computes exactly the plain minimax value. -/
theorem alphabeta_eq_plain (t : GameTree) (depth : Int) (maximizing : Bool)
    (hg : goodT t = true) :
    minimaxV t depth (-9999) 9999 maximizing = minimaxPlain t depth maximizing := by
  have hb := minimaxV_bounds t depth (-9999) 9999 maximizing hg
  exact (ab_node t depth (-9999) 9999 maximizing (by omega)).2.2 hb.1 hb.2

/-! ## Folded maxima and minima over lists of scores -/

theorem foldl_max_init (vs : List Int) (me : Int) : me ≤ vs.foldl max me := by
  induction vs generalizing me with
  | nil => exact le_refl _
  | cons v vs ih =>
    simp only [List.foldl_cons]
    have := ih (max me v)
    omega

theorem foldl_max_mem (vs : List Int) (me v : Int) (hv : v ∈ vs) :
    v ≤ vs.foldl max me := by
  induction vs generalizing me with
  | nil => cases hv
  | cons a vs ih =>
    simp only [List.foldl_cons]
    rcases List.mem_cons.1 hv with h | h
    · subst h
      have := foldl_max_init vs (max me v)
      omega
    · exact ih _ h

theorem foldl_max_of_le (vs : List Int) (me : Int) (h : ∀ v ∈ vs, v ≤ me) :
    vs.foldl max me = me := by
  induction vs with
  | nil => rfl
  | cons a vs ih =>
    simp only [List.foldl_cons]
    rw [show max me a = me by have := h a (List.mem_cons_self a vs); omega]
    exact ih (fun v hv => h v (List.mem_cons_of_mem a hv))

theorem foldl_min_init (vs : List Int) (me : Int) : vs.foldl min me ≤ me := by
  induction vs generalizing me with
  | nil => exact le_refl _
  | cons v vs ih =>
    simp only [List.foldl_cons]
    have := ih (min me v)
    omega

theorem foldl_min_mem (vs : List Int) (me v : Int) (hv : v ∈ vs) :
    vs.foldl min me ≤ v := by
  induction vs generalizing me with
  | nil => cases hv
  | cons a vs ih =>
    simp only [List.foldl_cons]
    rcases List.mem_cons.1 hv with h | h
    · subst h
      have := foldl_min_init vs (min me v)
      omega
    · exact ih _ h

theorem foldl_min_of_le (vs : List Int) (me : Int) (h : ∀ v ∈ vs, me ≤ v) :
    vs.foldl min me = me := by
  induction vs with
  | nil => rfl
  | cons a vs ih =>
    simp only [List.foldl_cons]
    rw [show min me a = me by have := h a (List.mem_cons_self a vs); omega]
    exact ih (fun v hv => h v (List.mem_cons_of_mem a hv))

theorem bestValW_cons (move : Move) (child : GameTree) (rest : GTList)
    (depth me : Int) :
    bestValW (.cons move child rest) depth me =
      bestValW rest depth (max me (rootValW depth (move, child))) := by
  simp [bestValW, GTList.toList]

theorem bestValW_mem (l : GTList) (depth me : Int) (mc : Move × GameTree)
    (hm : mc ∈ l.toList) : rootValW depth mc ≤ bestValW l depth me :=
  foldl_max_mem _ _ _ (List.mem_map_of_mem _ hm)

theorem bestValW_of_le (l : GTList) (depth me : Int)
    (h : ∀ mc ∈ l.toList, rootValW depth mc ≤ me) : bestValW l depth me = me := by
  refine foldl_max_of_le _ _ (fun v hv => ?_)
  rcases List.mem_map.1 hv with ⟨mc, hm, rfl⟩
  exact h mc hm

theorem bestValB_cons (move : Move) (child : GameTree) (rest : GTList)
    (depth me : Int) :
    bestValB (.cons move child rest) depth me =
      bestValB rest depth (min me (rootValB depth (move, child))) := by
  simp [bestValB, GTList.toList]

theorem bestValB_mem (l : GTList) (depth me : Int) (mc : Move × GameTree)
    (hm : mc ∈ l.toList) : bestValB l depth me ≤ rootValB depth mc :=
  foldl_min_mem _ _ _ (List.mem_map_of_mem _ hm)

theorem bestValB_of_le (l : GTList) (depth me : Int)
    (h : ∀ mc ∈ l.toList, me ≤ rootValB depth mc) : bestValB l depth me = me := by
  refine foldl_min_of_le _ _ (fun v hv => ?_)
  rcases List.mem_map.1 hv with ⟨mc, hm, rfl⟩
  exact h mc hm

/-! ## The root loops keep the first strict improvement -/

theorem rootBestMax_spec (l : GTList) (depth me : Int) (bm : Option Move) :
    ((∀ mc ∈ l.toList, rootValW depth mc ≤ me) →
      rootBestMax l depth me bm = (me, bm)) ∧
    ((∃ mc ∈ l.toList, me < rootValW depth mc) →
      rootBestMax l depth me bm =
        (bestValW l depth me,
          (l.toList.find? (fun mc => rootValW depth mc == bestValW l depth me)).map
            Prod.fst)) := by
  cases l with
  | nil =>
    constructor
    · intro _
      rfl
    · intro h
      simp [GTList.toList] at h
  | cons move child rest =>
    have hval : minimaxV child (depth - 1) (-9999) 9999 false =
        rootValW depth (move, child) := rfl
    constructor
    · intro h
      have hhead : rootValW depth (move, child) ≤ me :=
        h (move, child) (by simp [GTList.toList])
      simp only [rootBestMax, hval]
      rw [if_neg (by omega)]
      exact (rootBestMax_spec rest depth me bm).1
        (fun mc hm => h mc (by simp [GTList.toList, hm]))
    · intro hex
      simp only [rootBestMax, hval, GTList.toList]
      by_cases hv : me < rootValW depth (move, child)
      · rw [if_pos (by omega)]
        have hbv : bestValW (.cons move child rest) depth me =
            bestValW rest depth (rootValW depth (move, child)) := by
          rw [bestValW_cons,
            show max me (rootValW depth (move, child)) =
              rootValW depth (move, child) by omega]
        rw [hbv]
        by_cases hrest : ∃ mc ∈ rest.toList,
            rootValW depth (move, child) < rootValW depth mc
        · have hIH := (rootBestMax_spec rest depth
            (rootValW depth (move, child)) (some move)).2 hrest
          rw [hIH]
          rcases hrest with ⟨mc, hm, hlt⟩
          have hstrict : rootValW depth (move, child) <
              bestValW rest depth (rootValW depth (move, child)) := by
            have := bestValW_mem rest depth (rootValW depth (move, child)) mc hm
            omega
          rw [List.find?_cons_of_neg _ (by simp [beq_iff_eq]; omega)]
        · push_neg at hrest
          have hIH := (rootBestMax_spec rest depth
            (rootValW depth (move, child)) (some move)).1 hrest
          rw [hIH]
          have hM : bestValW rest depth (rootValW depth (move, child)) =
              rootValW depth (move, child) := bestValW_of_le rest depth _ hrest
          rw [hM]
          rw [List.find?_cons_of_pos _ (by simp)]
          rfl
      · rw [if_neg (by omega)]
        have hex2 : ∃ mc ∈ rest.toList, me < rootValW depth mc := by
          rcases hex with ⟨mc, hm, hlt⟩
          rcases List.mem_cons.1 (by simpa [GTList.toList] using hm) with h1 | h1
          · subst h1
            exact absurd hlt hv
          · exact ⟨mc, h1, hlt⟩
        have hIH := (rootBestMax_spec rest depth me bm).2 hex2
        rw [hIH]
        have hbv : bestValW (.cons move child rest) depth me =
            bestValW rest depth me := by
          rw [bestValW_cons,
            show max me (rootValW depth (move, child)) = me by omega]
        rw [hbv]
        rcases hex2 with ⟨mc, hm, hlt⟩
        have hstrict : rootValW depth (move, child) < bestValW rest depth me := by
          have := bestValW_mem rest depth me mc hm
          omega
        rw [List.find?_cons_of_neg _ (by simp [beq_iff_eq]; omega)]

theorem rootBestMin_spec (l : GTList) (depth me : Int) (bm : Option Move) :
    ((∀ mc ∈ l.toList, me ≤ rootValB depth mc) →
      rootBestMin l depth me bm = (me, bm)) ∧
    ((∃ mc ∈ l.toList, rootValB depth mc < me) →
      rootBestMin l depth me bm =
        (bestValB l depth me,
          (l.toList.find? (fun mc => rootValB depth mc == bestValB l depth me)).map
            Prod.fst)) := by
  cases l with
  | nil =>
    constructor
    · intro _
      rfl
    · intro h
      simp [GTList.toList] at h
  | cons move child rest =>
    have hval : minimaxV child (depth - 1) (-9999) 9999 true =
        rootValB depth (move, child) := rfl
    constructor
    · intro h
      have hhead : me ≤ rootValB depth (move, child) :=
        h (move, child) (by simp [GTList.toList])
      simp only [rootBestMin, hval]
      rw [if_neg (by omega)]
      exact (rootBestMin_spec rest depth me bm).1
        (fun mc hm => h mc (by simp [GTList.toList, hm]))
    · intro hex
      simp only [rootBestMin, hval, GTList.toList]
      by_cases hv : rootValB depth (move, child) < me
      · rw [if_pos (by omega)]
        have hbv : bestValB (.cons move child rest) depth me =
            bestValB rest depth (rootValB depth (move, child)) := by
          rw [bestValB_cons,
            show min me (rootValB depth (move, child)) =
              rootValB depth (move, child) by omega]
        rw [hbv]
        by_cases hrest : ∃ mc ∈ rest.toList,
            rootValB depth mc < rootValB depth (move, child)
        · have hIH := (rootBestMin_spec rest depth
            (rootValB depth (move, child)) (some move)).2 hrest
          rw [hIH]
          rcases hrest with ⟨mc, hm, hlt⟩
          have hstrict : bestValB rest depth (rootValB depth (move, child)) <
              rootValB depth (move, child) := by
            have := bestValB_mem rest depth (rootValB depth (move, child)) mc hm
            omega
          rw [List.find?_cons_of_neg _ (by simp [beq_iff_eq]; omega)]
        · push_neg at hrest
          have hIH := (rootBestMin_spec rest depth
            (rootValB depth (move, child)) (some move)).1 hrest
          rw [hIH]
          have hM : bestValB rest depth (rootValB depth (move, child)) =
              rootValB depth (move, child) := bestValB_of_le rest depth _ hrest
          rw [hM]
          rw [List.find?_cons_of_pos _ (by simp)]
          rfl
      · rw [if_neg (by omega)]
        have hex2 : ∃ mc ∈ rest.toList, rootValB depth mc < me := by
          rcases hex with ⟨mc, hm, hlt⟩
          rcases List.mem_cons.1 (by simpa [GTList.toList] using hm) with h1 | h1
          · subst h1
            exact absurd hlt hv
          · exact ⟨mc, h1, hlt⟩
        have hIH := (rootBestMin_spec rest depth me bm).2 hex2
        rw [hIH]
        have hbv : bestValB (.cons move child rest) depth me =
            bestValB rest depth me := by
          rw [bestValB_cons,
            show min me (rootValB depth (move, child)) = me by omega]
        rw [hbv]
        rcases hex2 with ⟨mc, hm, hlt⟩
        have hstrict : bestValB rest depth me < rootValB depth (move, child) := by
          have := bestValB_mem rest depth me mc hm
          omega
        rw [List.find?_cons_of_neg _ (by simp [beq_iff_eq]; omega)]

/-! ## Every score a search returns is a sentinel or an evaluator output -/

mutual
theorem minimaxV_mem (t : GameTree) (depth alpha beta : Int) (maximizing : Bool) :
    minimaxV t depth alpha beta maximizing = -9999 ∨
      minimaxV t depth alpha beta maximizing = 9999 ∨
      minimaxV t depth alpha beta maximizing ∈ treeVals t := by
  cases t with
  | mk b over legal =>
    simp only [minimaxV, treeVals]
    by_cases h : depth = 0 ∨ over = true
    · rw [if_pos h]
      exact Or.inr (Or.inr (List.mem_cons_self _ _))
    · rw [if_neg h]
      cases maximizing with
      | true =>
        rw [if_pos rfl]
        rcases maxLoopV_mem legal depth (-9999) alpha beta with h1 | h1 | h1 | h1
        · exact Or.inl h1
        · exact Or.inl h1
        · exact Or.inr (Or.inl h1)
        · exact Or.inr (Or.inr (List.mem_cons_of_mem _ h1))
      | false =>
        rw [if_neg (by simp)]
        rcases minLoopV_mem legal depth 9999 alpha beta with h1 | h1 | h1 | h1
        · exact Or.inr (Or.inl h1)
        · exact Or.inl h1
        · exact Or.inr (Or.inl h1)
        · exact Or.inr (Or.inr (List.mem_cons_of_mem _ h1))

theorem maxLoopV_mem (l : GTList) (depth max_eval alpha beta : Int) :
    maxLoopV l depth max_eval alpha beta = max_eval ∨
      maxLoopV l depth max_eval alpha beta = -9999 ∨
      maxLoopV l depth max_eval alpha beta = 9999 ∨
      maxLoopV l depth max_eval alpha beta ∈ treeValsL l := by
  cases l with
  | nil => exact Or.inl rfl
  | cons move child rest =>
    simp only [maxLoopV, treeValsL]
    have hc := minimaxV_mem child (depth - 1) alpha beta false
    by_cases hcut : beta ≤ max alpha
        (max max_eval (minimaxV child (depth - 1) alpha beta false))
    · rw [if_pos hcut]
      rcases le_total max_eval (minimaxV child (depth - 1) alpha beta false) with
        h1 | h1
      · rw [max_eq_right h1]
        rcases hc with h2 | h2 | h2
        · exact Or.inr (Or.inl h2)
        · exact Or.inr (Or.inr (Or.inl h2))
        · exact Or.inr (Or.inr (Or.inr (List.mem_append_left _ h2)))
      · rw [max_eq_left h1]
        exact Or.inl rfl
    · rw [if_neg hcut]
      rcases maxLoopV_mem rest depth
        (max max_eval (minimaxV child (depth - 1) alpha beta false))
        (max alpha (max max_eval (minimaxV child (depth - 1) alpha beta false)))
        beta with h1 | h1 | h1 | h1
      · rw [h1]
        rcases le_total max_eval (minimaxV child (depth - 1) alpha beta false) with
          h3 | h3
        · rw [max_eq_right h3]
          rcases hc with h2 | h2 | h2
          · exact Or.inr (Or.inl h2)
          · exact Or.inr (Or.inr (Or.inl h2))
          · exact Or.inr (Or.inr (Or.inr (List.mem_append_left _ h2)))
        · rw [max_eq_left h3]
          exact Or.inl rfl
      · exact Or.inr (Or.inl h1)
      · exact Or.inr (Or.inr (Or.inl h1))
      · exact Or.inr (Or.inr (Or.inr (List.mem_append_right _ h1)))

theorem minLoopV_mem (l : GTList) (depth min_eval alpha beta : Int) :
    minLoopV l depth min_eval alpha beta = min_eval ∨
      minLoopV l depth min_eval alpha beta = -9999 ∨
      minLoopV l depth min_eval alpha beta = 9999 ∨
      minLoopV l depth min_eval alpha beta ∈ treeValsL l := by
  cases l with
  | nil => exact Or.inl rfl
  | cons move child rest =>
    simp only [minLoopV, treeValsL]
    have hc := minimaxV_mem child (depth - 1) alpha beta true
    by_cases hcut : min beta
        (min min_eval (minimaxV child (depth - 1) alpha beta true)) ≤ alpha
    · rw [if_pos hcut]
      rcases le_total (minimaxV child (depth - 1) alpha beta true) min_eval with
        h1 | h1
      · rw [min_eq_right h1]
        rcases hc with h2 | h2 | h2
        · exact Or.inr (Or.inl h2)
        · exact Or.inr (Or.inr (Or.inl h2))
        · exact Or.inr (Or.inr (Or.inr (List.mem_append_left _ h2)))
      · rw [min_eq_left h1]
        exact Or.inl rfl
    · rw [if_neg hcut]
      rcases minLoopV_mem rest depth
        (min min_eval (minimaxV child (depth - 1) alpha beta true))
        alpha
        (min beta (min min_eval (minimaxV child (depth - 1) alpha beta true)))
        with h1 | h1 | h1 | h1
      · rw [h1]
        rcases le_total (minimaxV child (depth - 1) alpha beta true) min_eval with
          h3 | h3
        · rw [min_eq_right h3]
          rcases hc with h2 | h2 | h2
          · exact Or.inr (Or.inl h2)
          · exact Or.inr (Or.inr (Or.inl h2))
          · exact Or.inr (Or.inr (Or.inr (List.mem_append_left _ h2)))
        · rw [min_eq_left h3]
          exact Or.inl rfl
      · exact Or.inr (Or.inl h1)
      · exact Or.inr (Or.inr (Or.inl h1))
      · exact Or.inr (Or.inr (Or.inr (List.mem_append_right _ h1)))
end

theorem rootBestMax_mem (l : GTList) (depth max_eval : Int) (bm : Option Move) :
    (rootBestMax l depth max_eval bm).1 = max_eval ∨
      (rootBestMax l depth max_eval bm).1 = -9999 ∨
      (rootBestMax l depth max_eval bm).1 = 9999 ∨
      (rootBestMax l depth max_eval bm).1 ∈ treeValsL l := by
  cases l with
  | nil => exact Or.inl rfl
  | cons move child rest =>
    simp only [rootBestMax, treeValsL]
    have hc := minimaxV_mem child (depth - 1) (-9999) 9999 false
    split
    · rcases rootBestMax_mem rest depth
        (minimaxV child (depth - 1) (-9999) 9999 false) (some move) with
        h1 | h1 | h1 | h1
      · rw [h1]
        rcases hc with h2 | h2 | h2
        · exact Or.inr (Or.inl h2)
        · exact Or.inr (Or.inr (Or.inl h2))
        · exact Or.inr (Or.inr (Or.inr (List.mem_append_left _ h2)))
      · exact Or.inr (Or.inl h1)
      · exact Or.inr (Or.inr (Or.inl h1))
      · exact Or.inr (Or.inr (Or.inr (List.mem_append_right _ h1)))
    · rcases rootBestMax_mem rest depth max_eval bm with h1 | h1 | h1 | h1
      · exact Or.inl h1
      · exact Or.inr (Or.inl h1)
      · exact Or.inr (Or.inr (Or.inl h1))
      · exact Or.inr (Or.inr (Or.inr (List.mem_append_right _ h1)))

theorem rootBestMin_mem (l : GTList) (depth min_eval : Int) (bm : Option Move) :
    (rootBestMin l depth min_eval bm).1 = min_eval ∨
      (rootBestMin l depth min_eval bm).1 = -9999 ∨
      (rootBestMin l depth min_eval bm).1 = 9999 ∨
      (rootBestMin l depth min_eval bm).1 ∈ treeValsL l := by
  cases l with
  | nil => exact Or.inl rfl
  | cons move child rest =>
    simp only [rootBestMin, treeValsL]
    have hc := minimaxV_mem child (depth - 1) (-9999) 9999 true
    split
    · rcases rootBestMin_mem rest depth
        (minimaxV child (depth - 1) (-9999) 9999 true) (some move) with
        h1 | h1 | h1 | h1
      · rw [h1]
        rcases hc with h2 | h2 | h2
        · exact Or.inr (Or.inl h2)
        · exact Or.inr (Or.inr (Or.inl h2))
        · exact Or.inr (Or.inr (Or.inr (List.mem_append_left _ h2)))
      · exact Or.inr (Or.inl h1)
      · exact Or.inr (Or.inr (Or.inl h1))
      · exact Or.inr (Or.inr (Or.inr (List.mem_append_right _ h1)))
    · rcases rootBestMin_mem rest depth min_eval bm with h1 | h1 | h1 | h1
      · exact Or.inl h1
      · exact Or.inr (Or.inl h1)
      · exact Or.inr (Or.inr (Or.inl h1))
      · exact Or.inr (Or.inr (Or.inr (List.mem_append_right _ h1)))

/-! ## Claims -/

/-- C1, counterexample: the code's `evaluate` is not the spec's evaluator.
On the position with a lone White pawn on the central square e4 (and a Black
pawn on a7, Black to move, no check), the code computes the pure material
balance `0`, while the spec's formula adds the `+0.5` central-square bonus
and yields `1/2`. -/
theorem spec_C1_counterexample : (evaluate boardE4 : ℚ) ≠ evaluateSpec boardE4 := by
  norm_num [evaluateSpec, evaluate, centralCount, allPieceKinds, boardE4,
    centralSquare, square_file, square_rank, pieceValues]

/-- C1, amended: `evaluate(P)` is exactly the material difference (White
minus Black, weighted pawn 1, knight 3, bishop 3, rook 5, queen 9), with no
central-square and no check-threat term; the starting position evaluates to
`0`, and hence at depth 1 every legal first move (a position with the same
piece counts as the starting position) scores `0` — not `+0.5` for the four
central moves. -/
theorem spec_C1 :
    (∀ b : Board, (evaluate b : ℚ) = materialSpec b) ∧
    evaluate startBoard = 0 ∧
    (∀ b : Board, sameCounts b startBoard = true →
      ∀ (ov : Bool) (l : GTList) (alpha beta : Int) (mx : Bool)
        (p : List ((ℚ × ℚ) × (ℚ × ℚ))) (s : SearchState),
        (minimax (GameTree.mk b ov l) 0 alpha beta mx p s).1 = 0) := by
  refine ⟨?_, by decide, ?_⟩
  · intro b
    simp only [evaluate, materialSpec, pieceValues, List.map_cons, List.map_nil,
      List.sum_cons, List.sum_nil]
    push_cast
    ring
  · intro b hsc ov l alpha beta mx p s
    have h0 : (minimax (GameTree.mk b ov l) 0 alpha beta mx p s).1 = evaluate b := by
      simp [minimax]
    rw [h0]
    simp only [sameCounts, allPieceKinds, List.all_cons, List.all_nil,
      Bool.and_eq_true, beq_iff_eq] at hsc
    obtain ⟨⟨hp1, hp2⟩, ⟨hn1, hn2⟩, ⟨hb1, hb2⟩, ⟨hr1, hr2⟩, ⟨hq1, hq2⟩, hk⟩ := hsc
    simp only [evaluate, pieceValues, List.map_cons, List.map_nil,
      List.sum_cons, List.sum_nil]
    rw [hp1, hp2, hn1, hn2, hb1, hb2, hr1, hr2, hq1, hq2]
    decide

/-- C1, witness for the amended claim: the position after the double pawn
advance e2–e4 has the same piece counts as the starting position, so the
depth-0 search below that root move scores it `0`. -/
theorem spec_C1_witness :
    sameCounts boardAfterE4 startBoard = true ∧
      (minimax (GameTree.mk boardAfterE4 false GTList.nil) 0 (-9999) 9999 false
        [] st0).1 = 0 :=
  ⟨by decide,
    spec_C1.2.2 boardAfterE4 (by decide) false GTList.nil (-9999) 9999 false [] st0⟩

/-- C2: on every position reachable in chess with this evaluator (every
node's evaluation strictly inside the sentinel window, and legal moves
existing whenever the game is not over) and every depth `d ≥ 0`, `minimax`
run with the full sentinel window `(-9999, 9999)` returns exactly the value
of the same recursion with the alpha-beta cutoff removed, for either side
and regardless of the threaded path and state. -/
theorem spec_C2 (t : GameTree) (depth : Int) (maximizing : Bool)
    (p : List ((ℚ × ℚ) × (ℚ × ℚ))) (s : SearchState)
    (hg : goodT t = true) (_hd : 0 ≤ depth) :
    (minimax t depth (-9999) 9999 maximizing p s).1 =
      minimaxPlain t depth maximizing := by
  rw [minimax_val]
  exact alphabeta_eq_plain t depth maximizing hg

/-- C2, witness: a concrete depth-2 tree on which the cutoff does prune a
grandchild, with both searches agreeing on the value `3`. -/
theorem spec_C2_witness :
    goodT twit = true ∧ (0 : Int) ≤ 2 ∧
      (minimax twit 2 (-9999) 9999 true [] st0).1 = minimaxPlain twit 2 true :=
  ⟨by decide, by decide, spec_C2 twit 2 true [] st0 (by decide) (by decide)⟩

/-- C3, counterexample: the bundle `minimax_root` returns cannot contain the
best score.  Two no-legal-move positions whose terminal evaluations differ
(`1` versus `2`) produce completely identical outputs (best move `None` and
an unchanged state; the elapsed wall time carries no score either), so the
claimed "evaluator's terminal score" is not part of the returned bundle —
indeed the evaluator is not even called. -/
theorem spec_C3_counterexample :
    minimax_root temptyA 3 st0 = minimax_root temptyB 3 st0 ∧
      evaluate temptyA.board ≠ evaluate temptyB.board :=
  ⟨by decide, by decide⟩

/-- C3, amended: `minimax_root` returns only the best move (and the elapsed
wall time); the best score and the node count are not part of the returned
bundle — the node count lives in the module-global `explored` list.  When
the position has no legal moves it returns an absent best move with the
state untouched, and no terminal score. -/
theorem spec_C3 (t : GameTree) (depth : Int) (s : SearchState)
    (h : t.legal = GTList.nil) : minimax_root t depth s = (none, s) := by
  cases t with
  | mk b over l =>
    simp only [GameTree.legal] at h
    subst h
    simp only [minimax_root, rootMaxLoop, rootMinLoop]
    split <;> rfl

/-- C3, witness: a concrete game-over position with no legal moves. -/
theorem spec_C3_witness :
    temptyA.legal = GTList.nil ∧ minimax_root temptyA 3 st0 = (none, st0) :=
  ⟨rfl, spec_C3 temptyA 3 st0 rfl⟩

/-- C4, counterexample: at depth `-1` the code does not return `evaluate(P)`
immediately — the leaf test is `depth == 0`, not `depth ≤ 0`, so a negative
depth expands the node.  On a one-move position whose own evaluation is `0`
and whose successor is a game-over position of value `5`, the search at
depth `-1` returns `5`. -/
theorem spec_C4_counterexample :
    (minimax tneg (-1) (-9999) 9999 true [] st0).1 ≠ evaluate tneg.board := by
  decide

/-- C4, amended: at depth exactly `0` (and on terminal positions), `minimax`
returns `evaluate(P)` immediately, independent of `alpha`, `beta` and the
maximizing flag; for negative depths on non-terminal positions the code
expands instead. -/
theorem spec_C4 (t : GameTree) (alpha beta : Int) (maximizing : Bool)
    (p : List ((ℚ × ℚ) × (ℚ × ℚ))) (s : SearchState) :
    (minimax t 0 alpha beta maximizing p s).1 = evaluate t.board := by
  cases t with
  | mk b over l => simp [minimax, GameTree.board]

/-- C5, counterexample: the global trace is not cleared between invocations.
Running `minimax_root` twice consecutively on the same two-move position,
the second invocation's final trace is the first invocation's (non-empty)
trace followed by a second copy — every entry produced by the first
invocation is still there. -/
theorem spec_C5_counterexample :
    (minimax_root tsmall 1 (minimax_root tsmall 1 st0).2).2.explored =
      (minimax_root tsmall 1 st0).2.explored ++
        (minimax_root tsmall 1 st0).2.explored ∧
      (minimax_root tsmall 1 st0).2.explored ≠ [] := by
  constructor
  · have h1 : (minimax_root tsmall 1 st0).2.explored = rootTraceOf tsmall 1 := by
      rw [minimax_root_trace]
      rfl
    rw [minimax_root_trace tsmall 1 (minimax_root tsmall 1 st0).2, h1]
  · decide

/-- C5, amended: the module-global `explored` list is created once and never
cleared: every `minimax_root` invocation appends its TraceNodes after the
existing contents, so a second invocation's trace (and the node count read
from the global) still contains everything the first produced. -/
theorem spec_C5 (t : GameTree) (depth : Int) (s : SearchState) :
    (minimax_root t depth s).2.explored = s.explored ++ rootTraceOf t depth :=
  minimax_root_trace t depth s

/-- C6: the root driver retains the first-found optimal move.  For either
side to move, provided every root score strictly improves on the initial
sentinel, `minimax_root` returns exactly the first move in generation order
whose score attains the best value — so among tied optimal moves the
earliest wins. -/
theorem spec_C6 (b : Board) (over : Bool) (l : GTList) (depth : Int)
    (s : SearchState) :
    (b.turn = true → (∀ mc ∈ l.toList, -9999 < rootValW depth mc) →
      (minimax_root (.mk b over l) depth s).1 =
        (l.toList.find? (fun mc =>
          rootValW depth mc == bestValW l depth (-9999))).map Prod.fst) ∧
    (b.turn = false → (∀ mc ∈ l.toList, rootValB depth mc < 9999) →
      (minimax_root (.mk b over l) depth s).1 =
        (l.toList.find? (fun mc =>
          rootValB depth mc == bestValB l depth 9999)).map Prod.fst) := by
  constructor
  · intro ht hv
    rw [minimax_root_best, if_pos ht]
    cases l with
    | nil => rfl
    | cons move child rest =>
      have hex : ∃ mc ∈ (GTList.cons move child rest).toList,
          (-9999 : Int) < rootValW depth mc :=
        ⟨(move, child), by simp [GTList.toList],
          hv (move, child) (by simp [GTList.toList])⟩
      rw [(rootBestMax_spec (GTList.cons move child rest) depth (-9999) none).2 hex]
  · intro ht hv
    rw [minimax_root_best, if_neg (by simp [ht])]
    cases l with
    | nil => rfl
    | cons move child rest =>
      have hex : ∃ mc ∈ (GTList.cons move child rest).toList,
          rootValB depth mc < (9999 : Int) :=
        ⟨(move, child), by simp [GTList.toList],
          hv (move, child) (by simp [GTList.toList])⟩
      rw [(rootBestMin_spec (GTList.cons move child rest) depth 9999 none).2 hex]

/-- C6, witness: three root moves with scores `3, 3, 1` — the returned move
is the first of the two tied optimal ones, `mvA`. -/
theorem spec_C6_witness :
    (pawnBoard 0 0).turn = true ∧
      ttieL.toList.all (fun mc => decide (-9999 < rootValW 1 mc)) = true ∧
      (minimax_root (.mk (pawnBoard 0 0) false ttieL) 1 st0).1 =
        (ttieL.toList.find? (fun mc =>
          rootValW 1 mc == bestValW ttieL 1 (-9999))).map Prod.fst :=
  ⟨rfl, by decide,
    (spec_C6 (pawnBoard 0 0) false ttieL 1 st0).1 rfl (by decide)⟩

/-- C7: strict stack discipline.  Every `minimax` call returns the `path`
list exactly as received and leaves the board's move stack (the model of the
caller-owned mutable Position) exactly as before the call — on every exit
path, including the pruning break — and so does every `minimax_root`
invocation. -/
theorem spec_C7 (t : GameTree) (depth alpha beta : Int) (maximizing : Bool)
    (p : List ((ℚ × ℚ) × (ℚ × ℚ))) (s : SearchState) :
    (minimax t depth alpha beta maximizing p s).2.1 = p ∧
      (minimax t depth alpha beta maximizing p s).2.2.stack = s.stack ∧
      (minimax_root t depth s).2.stack = s.stack :=
  ⟨(minimax_frame t depth alpha beta maximizing p s).1,
    (minimax_frame t depth alpha beta maximizing p s).2,
    minimax_root_stack t depth s⟩

/-- C8: the trace is recorded in visitation-completion order.  Every
`minimax` call appends to the global trace exactly `traceOf`, the post-order
narrative in which a leaf or terminal node records itself at evaluation and
each searched child contributes its entire subtree trace immediately
followed by its own closing entry — so every descendant's entry precedes
its ancestor's. -/
theorem spec_C8 (t : GameTree) (depth alpha beta : Int) (maximizing : Bool)
    (p : List ((ℚ × ℚ) × (ℚ × ℚ))) (s : SearchState) :
    (minimax t depth alpha beta maximizing p s).2.2.explored =
      s.explored ++ traceOf t depth alpha beta maximizing p :=
  minimax_trace t depth alpha beta maximizing p s

/-- C9: once the bound update after a child makes `beta ≤ alpha`, the move
loop stops: the entire result (value, path, stack and recorded trace) is the
same as if the remaining sibling moves did not exist — they are never
applied, searched or recorded.  Stated for both the maximizing and the
minimizing loop. -/
theorem spec_C9 (move : Move) (child : GameTree) (rest : GTList)
    (depth max_eval min_eval alpha beta : Int)
    (p : List ((ℚ × ℚ) × (ℚ × ℚ))) (s : SearchState) :
    (beta ≤ max alpha (max max_eval
        (minimaxV child (depth - 1) alpha beta false)) →
      maxLoop (.cons move child rest) depth max_eval alpha beta p s =
        maxLoop (.cons move child .nil) depth max_eval alpha beta p s) ∧
    (min beta (min min_eval
        (minimaxV child (depth - 1) alpha beta true)) ≤ alpha →
      minLoop (.cons move child rest) depth min_eval alpha beta p s =
        minLoop (.cons move child .nil) depth min_eval alpha beta p s) := by
  constructor
  · intro h
    simp only [maxLoop]
    rw [minimax_val child (depth - 1) alpha beta false (p ++ [segOf move])
      ⟨move :: s.stack, s.explored⟩]
    simp only [if_pos h]
  · intro h
    simp only [minLoop]
    rw [minimax_val child (depth - 1) alpha beta true (p ++ [segOf move])
      ⟨move :: s.stack, s.explored⟩]
    simp only [if_pos h]

/-- C9, witness: concrete cutoffs in both loops — after the first child the
window closes, and the second sibling contributes nothing. -/
theorem spec_C9_witness :
    ((3 : Int) ≤ max 0 (max (-9999) (minimaxV (leafT 5 0) (1 - 1) 0 3 false)) ∧
      maxLoop (.cons mvA (leafT 5 0) (.cons mvB (leafT 7 0) .nil)) 1 (-9999) 0 3
          [] st0 =
        maxLoop (.cons mvA (leafT 5 0) .nil) 1 (-9999) 0 3 [] st0) ∧
    (min (9999 : Int) (min 9999 (minimaxV (leafT 0 5) (1 - 1) (-3) 9999 true))
        ≤ -3 ∧
      minLoop (.cons mvA (leafT 0 5) (.cons mvB (leafT 0 7) .nil)) 1 9999 (-3)
          9999 [] st0 =
        minLoop (.cons mvA (leafT 0 5) .nil) 1 9999 (-3) 9999 [] st0) :=
  ⟨⟨by decide, (spec_C9 mvA (leafT 5 0) (.cons mvB (leafT 7 0) .nil) 1 (-9999)
      9999 0 3 [] st0).1 (by decide)⟩,
    ⟨by decide, (spec_C9 mvA (leafT 0 5) (.cons mvB (leafT 0 7) .nil) 1 (-9999)
      9999 (-3) 9999 [] st0).2 (by decide)⟩⟩

/-- C10: every score anywhere in a search is an integer drawn from the
evaluator's outputs (themselves integer material sums) or the integer
sentinels `±9999`: the value returned by every `minimax` call and the best
score tracked by either root loop all lie in that set — no fractional
half-point score can occur. -/
theorem spec_C10 (t : GameTree) (depth alpha beta : Int) (maximizing : Bool)
    (p : List ((ℚ × ℚ) × (ℚ × ℚ))) (s : SearchState) (l : GTList)
    (bm : Option Move) :
    ((minimax t depth alpha beta maximizing p s).1 = -9999 ∨
      (minimax t depth alpha beta maximizing p s).1 = 9999 ∨
      (minimax t depth alpha beta maximizing p s).1 ∈ treeVals t) ∧
    ((rootMaxLoop l depth (-9999) bm s).1 = -9999 ∨
      (rootMaxLoop l depth (-9999) bm s).1 = 9999 ∨
      (rootMaxLoop l depth (-9999) bm s).1 ∈ treeValsL l) ∧
    ((rootMinLoop l depth 9999 bm s).1 = -9999 ∨
      (rootMinLoop l depth 9999 bm s).1 = 9999 ∨
      (rootMinLoop l depth 9999 bm s).1 ∈ treeValsL l) := by
  refine ⟨?_, ?_, ?_⟩
  · rw [minimax_val]
    rcases minimaxV_mem t depth alpha beta maximizing with h | h | h
    · exact Or.inl h
    · exact Or.inr (Or.inl h)
    · exact Or.inr (Or.inr h)
  · rw [(rootMaxLoop_val l depth (-9999) bm s).1]
    rcases rootBestMax_mem l depth (-9999) bm with h | h | h | h
    · exact Or.inl h
    · exact Or.inl h
    · exact Or.inr (Or.inl h)
    · exact Or.inr (Or.inr h)
  · rw [(rootMinLoop_val l depth 9999 bm s).1]
    rcases rootBestMin_mem l depth 9999 bm with h | h | h | h
    · exact Or.inr (Or.inl h)
    · exact Or.inl h
    · exact Or.inr (Or.inl h)
    · exact Or.inr (Or.inr h)
